/-
Verification of the humanesort crate (src/lib.rs): a "natural order"
string comparator built from a grapheme-run tokenizer, plus an in-place
sort entry point.

Shallow embedding conventions:
* A user-perceived character (grapheme cluster) is modelled as its list of
  Unicode scalar values (`Grapheme := List Char`); an input string is the
  list of its graphemes (`Str := List Grapheme`).  Unicode segmentation
  itself is performed by the external unicode_segmentation crate and is
  taken as given; all code of this repository operates on the resulting
  grapheme sequence.
* Rust `u64`/`usize` parsing (`str::parse`) is `parseU64 : List Char →
  Option Nat`: optional leading plus sign, then one or more ASCII digits,
  value at most `2^64 - 1` (the crate targets 64-bit `usize`); failure
  (including positive overflow) is `none`.
* `str::cmp` compares UTF-8 bytes; byte-wise lexicographic order on valid
  UTF-8 coincides with scalar-value-wise lexicographic order, embedded as
  `lexCmp` on `List Char`.
* A panic (`Option::unwrap` on `None`, as in `parse::<usize>().unwrap()`)
  is modelled by propagating `none`: `humane_cmp : Str → Str → Option
  Ordering` returns `none` exactly when the Rust code panics.
-/
import Mathlib

namespace Humanesort

/-- One user-perceived character (grapheme cluster), as its scalar values. -/
abbrev Grapheme := List Char

/-- An input string, as its sequence of grapheme clusters. -/
abbrev Str := List Grapheme

/-- `enum SortingType { Numeric, NonNumeric }` from src/lib.rs. -/
inductive SortingType where
  | Numeric
  | NonNumeric
deriving DecidableEq, Repr

/-- A token yielded by `TokenIterator`: the grapheme clusters of its span
together with its `SortingType`. -/
abbrev Token := List Grapheme × SortingType

/-- The scalar values of a token span (the `&str` the Rust token holds). -/
def chars (t : Token) : List Char := t.1.flatten

/-- Numeric value of a digit string read left to right (what a successful
`str::parse` of a digit run yields, leading zeros ignored). -/
def digitsVal (l : List Char) : Nat :=
  l.foldl (fun a c => a * 10 + (c.toNat - Char.toNat (Char.ofNat 48))) 0

/-- `true` iff the list is one or more ASCII decimal digits. -/
def isDigits (l : List Char) : Bool := !l.isEmpty && l.all (fun c => c.isDigit)

/-- `u64::MAX` (= `usize::MAX` on the 64-bit targets the crate assumes). -/
def U64MAX : Nat := 18446744073709551615

/-- The optional leading plus sign the Rust integer FromStr
implementation accepts and strips. -/
def stripPlus : List Char → List Char
  | '+' :: rest => rest
  | l => l

/-- Rust `str::parse::<u64>` / `parse::<usize>` on 64-bit: optional leading
plus sign, then one or more ASCII digits, rejecting values above `u64::MAX`
(positive overflow). -/
def parseU64 (l : List Char) : Option Nat :=
  if isDigits (stripPlus l) then
    if digitsVal (stripPlus l) ≤ U64MAX then some (digitsVal (stripPlus l)) else none
  else none

/-- `fn sorting_type(x: &str) -> SortingType` from src/lib.rs: `Numeric`
iff `x.parse::<u64>()` succeeds. -/
def sorting_type (g : List Char) : SortingType :=
  match parseU64 g with
  | some _ => SortingType.Numeric
  | none => SortingType.NonNumeric

/-- Run accumulator of `TokenIterator::next`: `k` is the kind of the run
being extended, `acc` its graphemes in reverse.  A kind change (detected by
the peek in the Rust loop) closes the current span and starts a new one;
end of input closes the last span. -/
def tokensGo (k : SortingType) (acc : List Grapheme) : List Grapheme → List Token
  | [] => [(acc.reverse, k)]
  | g :: gs =>
    if sorting_type g = k then tokensGo k (g :: acc) gs
    else (acc.reverse, k) :: tokensGo (sorting_type g) [g] gs

/-- The full token stream `TokenIterator::new(s, &sorting_type)` yields:
maximal runs of graphemes of equal `sorting_type`, in order. -/
def tokens : Str → List Token
  | [] => []
  | g :: gs => tokensGo (sorting_type g) [g] gs

/-- Rust `Ord::cmp` on natural numbers. -/
def natCmp (x y : Nat) : Ordering :=
  if x < y then Ordering.lt else if y < x then Ordering.gt else Ordering.eq

/-- Comparison of scalar values (`char` ordering). -/
def charCmp (a b : Char) : Ordering := natCmp a.toNat b.toNat

/-- Generic lexicographic comparison of lists by an element comparator:
exhausting first is `lt`, exhausting together is `eq`. -/
def listLex (c : α → α → Ordering) : List α → List α → Ordering
  | [], [] => Ordering.eq
  | [], _ :: _ => Ordering.lt
  | _ :: _, [] => Ordering.gt
  | x :: xs, y :: ys =>
    match c x y with
    | Ordering.eq => listLex c xs ys
    | o => o

/-- Rust `str::cmp` (byte order on valid UTF-8 = scalar-value order). -/
def lexCmp (s t : List Char) : Ordering := listLex charCmp s t

/-- The comparison loop of `HumaneOrder::humane_cmp` on the two token
streams.  `none` models the panic of `parse::<usize>().unwrap()` when a
numeric span's value exceeds `usize::MAX`. -/
def cmpTokens : List Token → List Token → Option Ordering
  | [], [] => some Ordering.eq
  | [], _ :: _ => some Ordering.lt
  | _ :: _, [] => some Ordering.gt
  | t :: ts, u :: us =>
    match t.2, u.2 with
    | SortingType.Numeric, SortingType.NonNumeric => some Ordering.lt
    | SortingType.NonNumeric, SortingType.Numeric => some Ordering.gt
    | SortingType.Numeric, SortingType.Numeric =>
      match parseU64 (chars t), parseU64 (chars u) with
      | some x, some y =>
        match natCmp x y with
        | Ordering.eq => cmpTokens ts us
        | o => some o
      | _, _ => none
    | SortingType.NonNumeric, SortingType.NonNumeric =>
      match lexCmp (chars t) (chars u) with
      | Ordering.eq => cmpTokens ts us
      | o => some o

/-- `HumaneOrder::humane_cmp` for string types: tokenize both inputs and
run the lockstep comparison loop. -/
def humane_cmp (a b : Str) : Option Ordering := cmpTokens (tokens a) (tokens b)

/-- Convenience: an ASCII string as a `Str` (each ASCII char is one
grapheme cluster). -/
def ofAscii (s : String) : Str := s.data.map (fun c => ([c] : Grapheme))

/-! ### Basic facts about the element comparators -/

theorem natCmp_self (x : Nat) : natCmp x x = Ordering.eq := by
  simp [natCmp]

theorem natCmp_swap (x y : Nat) : natCmp y x = (natCmp x y).swap := by
  unfold natCmp
  by_cases h1 : x < y
  · simp [h1, Nat.lt_asymm h1, Ordering.swap]
  · by_cases h2 : y < x
    · simp [h1, h2, Ordering.swap]
    · simp [h1, h2, Ordering.swap]

theorem natCmp_ne_gt {x y : Nat} : natCmp x y ≠ Ordering.gt ↔ x ≤ y := by
  unfold natCmp
  split_ifs with h1 h2 <;> simp <;> omega

theorem natCmp_trans {x y z : Nat} (h1 : natCmp x y ≠ Ordering.gt)
    (h2 : natCmp y z ≠ Ordering.gt) : natCmp x z ≠ Ordering.gt := by
  rw [natCmp_ne_gt] at h1 h2 ⊢
  omega

theorem charCmp_self (a : Char) : charCmp a a = Ordering.eq := natCmp_self _

theorem charCmp_swap (a b : Char) : charCmp b a = (charCmp a b).swap :=
  natCmp_swap _ _

theorem charCmp_trans {a b c : Char} (h1 : charCmp a b ≠ Ordering.gt)
    (h2 : charCmp b c ≠ Ordering.gt) : charCmp a c ≠ Ordering.gt :=
  natCmp_trans h1 h2

/-! ### Generic lexicographic list comparison -/

theorem listLex_self (c : α → α → Ordering) (h : ∀ x, c x x = Ordering.eq) :
    ∀ l, listLex c l l = Ordering.eq := by
  intro l
  induction l with
  | nil => rfl
  | cons x xs ih => simp [listLex, h x, ih]

theorem listLex_swap (c : α → α → Ordering) (h : ∀ x y, c y x = (c x y).swap) :
    ∀ l m, listLex c m l = (listLex c l m).swap := by
  intro l
  induction l with
  | nil => intro m; cases m <;> rfl
  | cons x xs ih =>
    intro m
    cases m with
    | nil => rfl
    | cons y ys =>
      simp only [listLex, h x y]
      cases hxy : c x y <;> simp [Ordering.swap, ih ys]

theorem listLex_trans (c : α → α → Ordering) (hs : ∀ x y, c y x = (c x y).swap)
    (ht : ∀ x y z, c x y ≠ Ordering.gt → c y z ≠ Ordering.gt → c x z ≠ Ordering.gt) :
    ∀ l m n, listLex c l m ≠ Ordering.gt → listLex c m n ≠ Ordering.gt →
      listLex c l n ≠ Ordering.gt := by
  intro l
  induction l with
  | nil =>
    intro m n _ _
    cases n <;> simp [listLex]
  | cons x xs ih =>
    intro m n h1 h2
    cases m with
    | nil => simp [listLex] at h1
    | cons y ys =>
      cases n with
      | nil => simp [listLex] at h2
      | cons z zs =>
        cases hxy : c x y with
        | gt => simp [listLex, hxy] at h1
        | eq =>
          cases hyz : c y z with
          | gt => simp [listLex, hyz] at h2
          | eq =>
            have h3 : c x z ≠ Ordering.gt := ht x y z (by simp [hxy]) (by simp [hyz])
            have h4 : c z x ≠ Ordering.gt := by
              apply ht z y x
              · rw [hs y z, hyz]; simp [Ordering.swap]
              · rw [hs x y, hxy]; simp [Ordering.swap]
            have h5 : c x z = Ordering.eq := by
              cases hxz : c x z with
              | eq => rfl
              | gt => exact absurd hxz h3
              | lt =>
                exfalso
                apply h4
                rw [hs x z, hxz]
                rfl
            have h1x : listLex c xs ys ≠ Ordering.gt := by
              simpa [listLex, hxy] using h1
            have h2x : listLex c ys zs ≠ Ordering.gt := by
              simpa [listLex, hyz] using h2
            simp only [listLex, h5]
            exact ih ys zs h1x h2x
          | lt =>
            have h3 : c x z ≠ Ordering.gt := ht x y z (by simp [hxy]) (by simp [hyz])
            have h5 : c x z = Ordering.lt := by
              cases hxz : c x z with
              | lt => rfl
              | gt => exact absurd hxz h3
              | eq =>
                exfalso
                have hzx : c z x = Ordering.eq := by rw [hs x z, hxz]; rfl
                have hzy : c z y ≠ Ordering.gt :=
                  ht z x y (by simp [hzx]) (by simp [hxy])
                apply hzy
                rw [hs y z, hyz]
                rfl
            simp [listLex, h5]
        | lt =>
          cases hyz : c y z with
          | gt => simp [listLex, hyz] at h2
          | eq =>
            have h3 : c x z ≠ Ordering.gt := ht x y z (by simp [hxy]) (by simp [hyz])
            have h5 : c x z = Ordering.lt := by
              cases hxz : c x z with
              | lt => rfl
              | gt => exact absurd hxz h3
              | eq =>
                exfalso
                have hzx : c z x = Ordering.eq := by rw [hs x z, hxz]; rfl
                have hyx : c y x ≠ Ordering.gt :=
                  ht y z x (by simp [hyz]) (by simp [hzx])
                apply hyx
                rw [hs x y, hxy]
                rfl
            simp [listLex, h5]
          | lt =>
            have h3 : c x z ≠ Ordering.gt := ht x y z (by simp [hxy]) (by simp [hyz])
            have h5 : c x z = Ordering.lt := by
              cases hxz : c x z with
              | lt => rfl
              | gt => exact absurd hxz h3
              | eq =>
                exfalso
                have hzx : c z x = Ordering.eq := by rw [hs x z, hxz]; rfl
                have hzy : c z y ≠ Ordering.gt :=
                  ht z x y (by simp [hzx]) (by simp [hxy])
                apply hzy
                rw [hs y z, hyz]
                rfl
            simp [listLex, h5]

theorem lexCmp_self (s : List Char) : lexCmp s s = Ordering.eq :=
  listLex_self charCmp charCmp_self s

theorem lexCmp_swap (s t : List Char) : lexCmp t s = (lexCmp s t).swap :=
  listLex_swap charCmp charCmp_swap s t

theorem lexCmp_trans {s t u : List Char} (h1 : lexCmp s t ≠ Ordering.gt)
    (h2 : lexCmp t u ≠ Ordering.gt) : lexCmp s u ≠ Ordering.gt :=
  listLex_trans charCmp charCmp_swap (fun _ _ _ => charCmp_trans) s t u h1 h2

/-! ### Parsing facts -/

theorem stripPlus_of_ne {c : Char} {cs : List Char} (hc : c ≠ '+') :
    stripPlus (c :: cs) = c :: cs := by
  unfold stripPlus
  split
  · rename_i heq
    injection heq with h2 h3
    exact absurd h2 hc
  · rfl

theorem digitsVal_stripPlus (l : List Char) : digitsVal (stripPlus l) = digitsVal l := by
  cases l with
  | nil => rfl
  | cons c cs =>
    by_cases hc : c = '+'
    · subst hc
      show digitsVal cs = digitsVal ('+' :: cs)
      unfold digitsVal
      simp [List.foldl]
    · rw [stripPlus_of_ne hc]

/-- A successful parse yields exactly the digit value of the characters:
in particular leading zeros do not change the parsed magnitude. -/
theorem parseU64_digitsVal {l : List Char} {x : Nat} (h : parseU64 l = some x) :
    x = digitsVal l := by
  unfold parseU64 at h
  by_cases h1 : isDigits (stripPlus l)
  · rw [if_pos h1] at h
    by_cases h2 : digitsVal (stripPlus l) ≤ U64MAX
    · rw [if_pos h2] at h
      cases h
      exact digitsVal_stripPlus l
    · rw [if_neg h2] at h
      cases h
  · rw [if_neg h1] at h
    cases h

/-- Leading zeros never change the digit value. -/
theorem digitsVal_zero_cons (l : List Char) : digitsVal ('0' :: l) = digitsVal l := by
  unfold digitsVal
  simp [List.foldl]

/-! ### The total (panic-free) comparator and refinement -/

/-- The verdict the comparison loop produces on a token pair when no panic
intervenes: kind mismatch decides (Numeric is less), equal kinds compare by
numeric magnitude resp. lexicographic character order. -/
def cmpTokTotal (t u : Token) : Ordering :=
  match t.2, u.2 with
  | SortingType.Numeric, SortingType.NonNumeric => Ordering.lt
  | SortingType.NonNumeric, SortingType.Numeric => Ordering.gt
  | SortingType.Numeric, SortingType.Numeric =>
    natCmp (digitsVal (chars t)) (digitsVal (chars u))
  | SortingType.NonNumeric, SortingType.NonNumeric => lexCmp (chars t) (chars u)

/-- The panic-free comparison of whole token streams: lexicographic in the
token pairs, exhausted side less. -/
def cmpTokensTotal (ts us : List Token) : Ordering := listLex cmpTokTotal ts us

theorem cmpTokTotal_self (t : Token) : cmpTokTotal t t = Ordering.eq := by
  obtain ⟨g, k⟩ := t
  cases k
  · exact natCmp_self _
  · exact lexCmp_self _

theorem cmpTokTotal_swap (t u : Token) : cmpTokTotal u t = (cmpTokTotal t u).swap := by
  obtain ⟨g, k⟩ := t
  obtain ⟨g2, k2⟩ := u
  cases k <;> cases k2
  · exact natCmp_swap _ _
  · rfl
  · rfl
  · exact lexCmp_swap _ _

theorem cmpTokTotal_trans (t u v : Token) (h1 : cmpTokTotal t u ≠ Ordering.gt)
    (h2 : cmpTokTotal u v ≠ Ordering.gt) : cmpTokTotal t v ≠ Ordering.gt := by
  obtain ⟨g1, k1⟩ := t
  obtain ⟨g2, k2⟩ := u
  obtain ⟨g3, k3⟩ := v
  cases k1 <;> cases k2 <;> cases k3 <;>
    first
      | (exact absurd rfl h1)
      | (exact absurd rfl h2)
      | (intro h; cases h)
      | (exact natCmp_trans h1 h2)
      | (exact lexCmp_trans h1 h2)

theorem cmpTokensTotal_self (ts : List Token) : cmpTokensTotal ts ts = Ordering.eq :=
  listLex_self cmpTokTotal cmpTokTotal_self ts

theorem cmpTokensTotal_swap (ts us : List Token) :
    cmpTokensTotal us ts = (cmpTokensTotal ts us).swap :=
  listLex_swap cmpTokTotal cmpTokTotal_swap ts us

theorem cmpTokensTotal_trans (ts us vs : List Token)
    (h1 : cmpTokensTotal ts us ≠ Ordering.gt) (h2 : cmpTokensTotal us vs ≠ Ordering.gt) :
    cmpTokensTotal ts vs ≠ Ordering.gt :=
  listLex_trans cmpTokTotal cmpTokTotal_swap cmpTokTotal_trans ts us vs h1 h2

/-- No numeric token of the list overflows `usize`: the hypothesis under
which the Rust comparison loop cannot panic. -/
def parsesOk (l : List Token) : Prop :=
  ∀ t ∈ l, t.2 = SortingType.Numeric → (parseU64 (chars t)).isSome

instance (l : List Token) : Decidable (parsesOk l) :=
  inferInstanceAs (Decidable (∀ t ∈ l, t.2 = SortingType.Numeric →
    (parseU64 (chars t)).isSome))

/-- No digit run of the string overflows `usize`. -/
def parsesOkStr (a : Str) : Prop := parsesOk (tokens a)

instance (a : Str) : Decidable (parsesOkStr a) :=
  inferInstanceAs (Decidable (parsesOk (tokens a)))

theorem parsesOk_cons {t : Token} {l : List Token} (h : parsesOk (t :: l)) :
    parsesOk l :=
  fun u hu => h u (List.mem_cons_of_mem _ hu)

/-- Refinement: when no numeric span overflows, the comparison loop never
panics and computes exactly the total lexicographic comparison. -/
theorem cmpTokens_eq_total :
    ∀ ts us, parsesOk ts → parsesOk us → cmpTokens ts us = some (cmpTokensTotal ts us) := by
  intro ts
  induction ts with
  | nil =>
    intro us _ _
    cases us <;> rfl
  | cons t ts ih =>
    intro us hts hus
    cases us with
    | nil => rfl
    | cons u us2 =>
      have hts2 : parsesOk ts := parsesOk_cons hts
      have hus2 : parsesOk us2 := parsesOk_cons hus
      obtain ⟨ga, ka⟩ := t
      obtain ⟨gb, kb⟩ := u
      cases ka <;> cases kb
      · have h1 := hts _ (List.mem_cons_self _ _) rfl
        have h2 := hus _ (List.mem_cons_self _ _) rfl
        obtain ⟨x, hx⟩ := Option.isSome_iff_exists.mp h1
        obtain ⟨y, hy⟩ := Option.isSome_iff_exists.mp h2
        have hx2 := parseU64_digitsVal hx
        have hy2 := parseU64_digitsVal hy
        simp only [cmpTokens, cmpTokensTotal, listLex, cmpTokTotal, hx, hy, ← hx2, ← hy2]
        cases hc : natCmp x y <;> simp [hc, cmpTokensTotal, ih us2 hts2 hus2]
      · simp [cmpTokens, cmpTokensTotal, listLex, cmpTokTotal]
      · simp [cmpTokens, cmpTokensTotal, listLex, cmpTokTotal]
      · simp only [cmpTokens, cmpTokensTotal, listLex, cmpTokTotal]
        cases hc : lexCmp (chars (ga, SortingType.NonNumeric)) (chars (gb, SortingType.NonNumeric)) <;>
          simp [hc, cmpTokensTotal, ih us2 hts2 hus2]

theorem humane_cmp_eq_total {a b : Str} (ha : parsesOkStr a) (hb : parsesOkStr b) :
    humane_cmp a b = some (cmpTokensTotal (tokens a) (tokens b)) :=
  cmpTokens_eq_total _ _ ha hb

/-! ### Antisymmetry of the loop, unconditionally -/

theorem cmpTokens_swap : ∀ ts us, cmpTokens us ts = (cmpTokens ts us).map Ordering.swap := by
  intro ts
  induction ts with
  | nil =>
    intro us
    cases us <;> rfl
  | cons t ts ih =>
    intro us
    cases us with
    | nil => rfl
    | cons u us2 =>
      obtain ⟨ga, ka⟩ := t
      obtain ⟨gb, kb⟩ := u
      cases ka <;> cases kb
      · simp only [cmpTokens]
        cases hx : parseU64 (chars (ga, SortingType.Numeric)) <;>
          cases hy : parseU64 (chars (gb, SortingType.Numeric)) <;>
            simp only []
        · rfl
        · rfl
        · rfl
        · rename_i x y
          rw [natCmp_swap]
          cases hc : natCmp x y <;> simp [Ordering.swap, ih us2]
      · rfl
      · rfl
      · simp only [cmpTokens]
        rw [lexCmp_swap]
        cases hc : lexCmp (chars (ga, SortingType.NonNumeric)) (chars (gb, SortingType.NonNumeric)) <;>
          simp [Ordering.swap, ih us2]

/-- Antisymmetry of the comparator, including the panic case (the call on
swapped arguments panics exactly when the original call panics). -/
theorem humane_cmp_swap (a b : Str) :
    humane_cmp b a = (humane_cmp a b).map Ordering.swap :=
  cmpTokens_swap (tokens a) (tokens b)

/-! ### Tokenizer structure -/

theorem tokensGo_eq_of_kind {g : Grapheme} {k : SortingType} (h : sorting_type g = k)
    (acc : List Grapheme) (gs : List Grapheme) :
    tokensGo k acc (g :: gs) = tokensGo k (g :: acc) gs := by
  simp [tokensGo, h]

theorem tokensGo_eq_of_ne {g : Grapheme} {k : SortingType} (h : sorting_type g ≠ k)
    (acc : List Grapheme) (gs : List Grapheme) :
    tokensGo k acc (g :: gs) = (acc.reverse, k) :: tokensGo (sorting_type g) [g] gs := by
  simp [tokensGo, h]

theorem tokensGo_flatten :
    ∀ (gs : List Grapheme) (k : SortingType) (acc : List Grapheme),
      ((tokensGo k acc gs).map Prod.fst).flatten = acc.reverse ++ gs := by
  intro gs
  induction gs with
  | nil =>
    intro k acc
    simp [tokensGo]
  | cons g gs ih =>
    intro k acc
    by_cases h : sorting_type g = k
    · rw [tokensGo_eq_of_kind h, ih]
      simp
    · rw [tokensGo_eq_of_ne h]
      simp [ih]

/-- Concatenating all token spans reconstructs the input. -/
theorem tokens_flatten (a : Str) : ((tokens a).map Prod.fst).flatten = a := by
  cases a with
  | nil => rfl
  | cons g gs =>
    show ((tokensGo (sorting_type g) [g] gs).map Prod.fst).flatten = g :: gs
    rw [tokensGo_flatten]
    rfl

theorem tokensGo_shape :
    ∀ (gs : List Grapheme) (k : SortingType) (acc : List Grapheme),
      ∃ s rest, tokensGo k acc gs = (s, k) :: rest := by
  intro gs
  induction gs with
  | nil =>
    intro k acc
    exact ⟨acc.reverse, [], rfl⟩
  | cons g gs ih =>
    intro k acc
    by_cases h : sorting_type g = k
    · rw [tokensGo_eq_of_kind h]
      exact ih k (g :: acc)
    · rw [tokensGo_eq_of_ne h]
      exact ⟨acc.reverse, tokensGo (sorting_type g) [g] gs, rfl⟩

/-- A non-empty input yields at least one token. -/
theorem tokens_ne_nil {a : Str} (h : a ≠ []) : tokens a ≠ [] := by
  cases a with
  | nil => exact absurd rfl h
  | cons g gs =>
    obtain ⟨s, rest, heq⟩ := tokensGo_shape gs (sorting_type g) [g]
    show tokensGo (sorting_type g) [g] gs ≠ []
    rw [heq]
    exact List.cons_ne_nil _ _

theorem tokensGo_mem :
    ∀ (gs : List Grapheme) (k : SortingType) (acc : List Grapheme),
      acc ≠ [] → (∀ g2 ∈ acc, sorting_type g2 = k) →
      ∀ t ∈ tokensGo k acc gs, t.1 ≠ [] ∧ ∀ g2 ∈ t.1, sorting_type g2 = t.2 := by
  intro gs
  induction gs with
  | nil =>
    intro k acc hne hall t ht
    simp [tokensGo] at ht
    subst ht
    refine ⟨by simpa using hne, ?_⟩
    intro g2 hg2
    rw [List.mem_reverse] at hg2
    exact hall g2 hg2
  | cons g gs ih =>
    intro k acc hne hall t ht
    by_cases h : sorting_type g = k
    · rw [tokensGo_eq_of_kind h] at ht
      refine ih k (g :: acc) (List.cons_ne_nil _ _) ?_ t ht
      intro g2 hg2
      rcases List.mem_cons.mp hg2 with h2 | h2
      · subst h2; exact h
      · exact hall g2 h2
    · rw [tokensGo_eq_of_ne h] at ht
      rcases List.mem_cons.mp ht with h2 | h2
      · subst h2
        refine ⟨by simpa using hne, ?_⟩
        intro g2 hg2
        rw [List.mem_reverse] at hg2
        exact hall g2 hg2
      · refine ih (sorting_type g) [g] (List.cons_ne_nil _ _) ?_ t h2
        intro g2 hg2
        rw [List.mem_singleton] at hg2
        subst hg2
        rfl

/-- Every yielded token is a non-empty span whose graphemes all have the
token's classification. -/
theorem tokens_mem {a : Str} :
    ∀ t ∈ tokens a, t.1 ≠ [] ∧ ∀ g2 ∈ t.1, sorting_type g2 = t.2 := by
  cases a with
  | nil =>
    intro t ht
    simp [tokens] at ht
  | cons g gs =>
    refine tokensGo_mem gs (sorting_type g) [g] (List.cons_ne_nil _ _) ?_
    intro g2 hg2
    rw [List.mem_singleton] at hg2
    subst hg2
    rfl

theorem tokensGo_chain :
    ∀ (gs : List Grapheme) (k : SortingType) (acc : List Grapheme),
      List.Chain' (fun t u : Token => t.2 ≠ u.2) (tokensGo k acc gs) := by
  intro gs
  induction gs with
  | nil =>
    intro k acc
    simp [tokensGo]
  | cons g gs ih =>
    intro k acc
    by_cases h : sorting_type g = k
    · rw [tokensGo_eq_of_kind h]
      exact ih k (g :: acc)
    · rw [tokensGo_eq_of_ne h]
      rw [List.chain'_cons']
      refine ⟨?_, ih (sorting_type g) [g]⟩
      intro u hu
      obtain ⟨s, rest, heq⟩ := tokensGo_shape gs (sorting_type g) [g]
      rw [heq] at hu
      simp at hu
      subst hu
      exact fun hk => h hk.symm

/-- Adjacent yielded tokens always have different kinds (runs are maximal). -/
theorem tokens_chain (a : Str) :
    List.Chain' (fun t u : Token => t.2 ≠ u.2) (tokens a) := by
  cases a with
  | nil => simp [tokens]
  | cons g gs => exact tokensGo_chain gs (sorting_type g) [g]

/-! ### The sorting entry point

`HumaneSortable::humane_sort` is `self.sort_by(|a, b| a.humane_cmp(b))`:
Rust's stable slice sort keyed by the comparator.  Its observable contract
(a stable, sorted permutation; a panic if the comparator panics) is
modelled by a stable insertion sort in which a panicking comparison
(`humane_cmp _ _ = none`) aborts the whole sort with `none`.  When the
comparator is a total preorder on the elements, every stable sort produces
the same output list, so the model is exact on panic-free inputs. -/

def hinsert (x : Str) : List Str → Option (List Str)
  | [] => some [x]
  | y :: ys =>
    match humane_cmp x y with
    | none => none
    | some Ordering.gt => (hinsert x ys).map (fun l => y :: l)
    | some _ => some (x :: y :: ys)

def humane_sort : List Str → Option (List Str)
  | [] => some []
  | x :: xs => (humane_sort xs).bind (fun l => hinsert x l)

theorem hinsert_perm (x : Str) :
    ∀ (l out : List Str), hinsert x l = some out → out.Perm (x :: l) := by
  intro l
  induction l with
  | nil =>
    intro out h
    simp [hinsert] at h
    subst h
    exact List.Perm.refl _
  | cons y ys ih =>
    intro out h
    unfold hinsert at h
    cases hc : humane_cmp x y with
    | none => rw [hc] at h; cases h
    | some o =>
      rw [hc] at h
      cases o with
      | gt =>
        cases h2 : hinsert x ys with
        | none => rw [h2] at h; cases h
        | some o2 =>
          rw [h2] at h
          simp only [Option.map_some] at h
          injection h with h
          subst h
          exact ((ih o2 h2).cons y).trans (List.Perm.swap x y ys)
      | lt =>
        injection h with h
        subst h
        exact List.Perm.refl _
      | eq =>
        injection h with h
        subst h
        exact List.Perm.refl _

theorem humane_sort_perm :
    ∀ (l out : List Str), humane_sort l = some out → out.Perm l := by
  intro l
  induction l with
  | nil =>
    intro out h
    simp [humane_sort] at h
    subst h
    exact List.Perm.refl _
  | cons x xs ih =>
    intro out h
    unfold humane_sort at h
    cases h2 : humane_sort xs with
    | none => rw [h2] at h; cases h
    | some mid =>
      rw [h2] at h
      simp only [Option.some_bind] at h
      exact (hinsert_perm x mid out h).trans ((ih mid h2).cons x)

theorem hinsert_isSome (x : Str) (hx : parsesOkStr x) :
    ∀ l : List Str, (∀ a ∈ l, parsesOkStr a) → (hinsert x l).isSome := by
  intro l
  induction l with
  | nil => intro _; rfl
  | cons y ys ih =>
    intro hl
    have hy : parsesOkStr y := hl y (List.mem_cons_self _ _)
    unfold hinsert
    rw [humane_cmp_eq_total hx hy]
    cases hc : cmpTokensTotal (tokens x) (tokens y) with
    | lt => rfl
    | eq => rfl
    | gt =>
      have := ih (fun a ha => hl a (List.mem_cons_of_mem _ ha))
      cases h2 : hinsert x ys with
      | none => rw [h2] at this; cases this
      | some o2 => rfl

theorem humane_sort_isSome :
    ∀ l : List Str, (∀ a ∈ l, parsesOkStr a) → (humane_sort l).isSome := by
  intro l
  induction l with
  | nil => intro _; rfl
  | cons x xs ih =>
    intro hl
    unfold humane_sort
    have h2 := ih (fun a ha => hl a (List.mem_cons_of_mem _ ha))
    cases hmid : humane_sort xs with
    | none => rw [hmid] at h2; cases h2
    | some mid =>
      simp only [Option.some_bind]
      apply hinsert_isSome x (hl x (List.mem_cons_self _ _))
      intro a ha
      exact hl a (List.mem_cons_of_mem _
        ((humane_sort_perm xs mid hmid).mem_iff.mp ha))

/-- Transitivity of "not greater" on panic-free strings. -/
theorem humane_le_trans {a b c : Str} (ha : parsesOkStr a) (hb : parsesOkStr b)
    (hc : parsesOkStr c) (h1 : humane_cmp a b ≠ some Ordering.gt)
    (h2 : humane_cmp b c ≠ some Ordering.gt) : humane_cmp a c ≠ some Ordering.gt := by
  rw [humane_cmp_eq_total ha hb] at h1
  rw [humane_cmp_eq_total hb hc] at h2
  rw [humane_cmp_eq_total ha hc]
  intro h
  injection h with h
  exact cmpTokensTotal_trans (tokens a) (tokens b) (tokens c)
    (fun h3 => h1 (by rw [h3])) (fun h3 => h2 (by rw [h3])) h

theorem hinsert_sorted (x : Str) (hx : parsesOkStr x) :
    ∀ (l out : List Str), (∀ a ∈ l, parsesOkStr a) →
      l.Pairwise (fun a b => humane_cmp a b ≠ some Ordering.gt) →
      hinsert x l = some out →
      out.Pairwise (fun a b => humane_cmp a b ≠ some Ordering.gt) := by
  intro l
  induction l with
  | nil =>
    intro out _ _ h
    simp [hinsert] at h
    subst h
    simp
  | cons y ys ih =>
    intro out hl hs h
    have hy : parsesOkStr y := hl y (List.mem_cons_self _ _)
    unfold hinsert at h
    cases hc : humane_cmp x y with
    | none => rw [hc] at h; cases h
    | some o =>
      rw [hc] at h
      cases o with
      | gt =>
        cases h2 : hinsert x ys with
        | none => rw [h2] at h; cases h
        | some o2 =>
          rw [h2] at h
          simp only [Option.map_some] at h
          injection h with h
          subst h
          rw [List.pairwise_cons]
          rw [List.pairwise_cons] at hs
          refine ⟨?_, ih o2 (fun a ha => hl a (List.mem_cons_of_mem _ ha)) hs.2 h2⟩
          intro z hz
          rcases List.mem_cons.mp ((hinsert_perm x ys o2 h2).mem_iff.mp hz) with h3 | h3
          · subst h3
            rw [humane_cmp_swap, hc]
            intro h4
            cases h4
          · exact hs.1 z h3
      | lt =>
        injection h with h
        subst h
        rw [List.pairwise_cons]
        refine ⟨?_, hs⟩
        intro z hz
        rcases List.mem_cons.mp hz with h3 | h3
        · subst h3
          rw [hc]
          intro h4
          cases h4
        · rw [List.pairwise_cons] at hs
          exact humane_le_trans hx hy (hl z (List.mem_cons_of_mem _ h3))
            (by rw [hc]; intro h4; cases h4) (hs.1 z h3)
      | eq =>
        injection h with h
        subst h
        rw [List.pairwise_cons]
        refine ⟨?_, hs⟩
        intro z hz
        rcases List.mem_cons.mp hz with h3 | h3
        · subst h3
          rw [hc]
          intro h4
          cases h4
        · rw [List.pairwise_cons] at hs
          exact humane_le_trans hx hy (hl z (List.mem_cons_of_mem _ h3))
            (by rw [hc]; intro h4; cases h4) (hs.1 z h3)

theorem humane_sort_sorted :
    ∀ (l out : List Str), (∀ a ∈ l, parsesOkStr a) → humane_sort l = some out →
      out.Pairwise (fun a b => humane_cmp a b ≠ some Ordering.gt) := by
  intro l
  induction l with
  | nil =>
    intro out _ h
    simp [humane_sort] at h
    subst h
    simp
  | cons x xs ih =>
    intro out hl h
    unfold humane_sort at h
    cases hmid : humane_sort xs with
    | none => rw [hmid] at h; cases h
    | some mid =>
      rw [hmid] at h
      simp only [Option.some_bind] at h
      have hmems : ∀ a ∈ mid, parsesOkStr a := fun a ha =>
        hl a (List.mem_cons_of_mem _ ((humane_sort_perm xs mid hmid).mem_iff.mp ha))
      exact hinsert_sorted x (hl x (List.mem_cons_self _ _)) mid out hmems
        (ih mid (fun a ha => hl a (List.mem_cons_of_mem _ ha)) hmid) h

/-- Two strings both comparing `Equal` to a pivot never compare `Greater`
to each other (needed for stability). -/
theorem humane_eq_not_gt {x y p : Str} (hx : parsesOkStr x) (hy : parsesOkStr y)
    (hp : parsesOkStr p) (h1 : humane_cmp x p = some Ordering.eq)
    (h2 : humane_cmp y p = some Ordering.eq) : humane_cmp x y ≠ some Ordering.gt := by
  have hpy : humane_cmp p y = some Ordering.eq := by
    rw [humane_cmp_swap, h2]
    rfl
  exact humane_le_trans hx hp hy (by rw [h1]; intro h4; cases h4)
    (by rw [hpy]; intro h4; cases h4)

theorem hinsert_filter (p x : Str) (hp : parsesOkStr p) (hx : parsesOkStr x) :
    ∀ (l out : List Str), (∀ a ∈ l, parsesOkStr a) → hinsert x l = some out →
      out.filter (fun z => decide (humane_cmp z p = some Ordering.eq)) =
        if humane_cmp x p = some Ordering.eq then
          x :: l.filter (fun z => decide (humane_cmp z p = some Ordering.eq))
        else l.filter (fun z => decide (humane_cmp z p = some Ordering.eq)) := by
  intro l
  induction l with
  | nil =>
    intro out _ h
    simp [hinsert] at h
    subst h
    by_cases hxp : humane_cmp x p = some Ordering.eq <;> simp [List.filter, hxp]
  | cons y ys ih =>
    intro out hl h
    have hy : parsesOkStr y := hl y (List.mem_cons_self _ _)
    unfold hinsert at h
    cases hc : humane_cmp x y with
    | none => rw [hc] at h; cases h
    | some o =>
      rw [hc] at h
      cases o with
      | gt =>
        cases h2 : hinsert x ys with
        | none => rw [h2] at h; cases h
        | some o2 =>
          rw [h2] at h
          simp only [Option.map_some] at h
          injection h with h
          subst h
          have ihy := ih o2 (fun a ha => hl a (List.mem_cons_of_mem _ ha)) h2
          by_cases hyp : humane_cmp y p = some Ordering.eq
          · by_cases hxp : humane_cmp x p = some Ordering.eq
            · exact absurd hc (humane_eq_not_gt hx hy hp hxp hyp)
            · rw [if_neg hxp] at ihy
              simp [List.filter_cons, hyp, hxp, ihy]
          · by_cases hxp : humane_cmp x p = some Ordering.eq
            · rw [if_pos hxp] at ihy
              simp [List.filter_cons, hyp, hxp, ihy]
            · rw [if_neg hxp] at ihy
              simp [List.filter_cons, hyp, hxp, ihy]
      | lt =>
        injection h with h
        subst h
        by_cases hxp : humane_cmp x p = some Ordering.eq <;>
          simp [List.filter_cons, hxp]
      | eq =>
        injection h with h
        subst h
        by_cases hxp : humane_cmp x p = some Ordering.eq <;>
          simp [List.filter_cons, hxp]

/-- Stability: the subsequence of elements equal (under the comparator) to
any fixed pivot is unchanged by sorting. -/
theorem humane_sort_filter (p : Str) (hp : parsesOkStr p) :
    ∀ (l out : List Str), (∀ a ∈ l, parsesOkStr a) → humane_sort l = some out →
      out.filter (fun z => decide (humane_cmp z p = some Ordering.eq)) =
        l.filter (fun z => decide (humane_cmp z p = some Ordering.eq)) := by
  intro l
  induction l with
  | nil =>
    intro out _ h
    simp [humane_sort] at h
    subst h
    rfl
  | cons x xs ih =>
    intro out hl h
    unfold humane_sort at h
    cases hmid : humane_sort xs with
    | none => rw [hmid] at h; cases h
    | some mid =>
      rw [hmid] at h
      simp only [Option.some_bind] at h
      have hmems : ∀ a ∈ mid, parsesOkStr a := fun a ha =>
        hl a (List.mem_cons_of_mem _ ((humane_sort_perm xs mid hmid).mem_iff.mp ha))
      have hxok : parsesOkStr x := hl x (List.mem_cons_self _ _)
      rw [hinsert_filter p x hp hxok mid out hmems h,
        ih mid (fun a ha => hl a (List.mem_cons_of_mem _ ha)) hmid]
      by_cases hxp : humane_cmp x p = some Ordering.eq <;>
        simp [List.filter_cons, hxp]

/-! ### The claims -/

/-- Claim C1 (refuted by the code, confirming the spec's intent): the spec
requires the comparator to be total — no panic and no wrap even for digit
runs too long for a fixed-width integer.  The implementation instead calls
`parse::<usize>().unwrap()` on every Numeric token pair, which panics once
a digit run's value exceeds `usize::MAX`: comparing the twenty-nines
string (≈ 10^20 > `usize::MAX`) against `"0"` panics, modelled as `none`. -/
theorem c1_humane_cmp_overflow_panics :
    humane_cmp (List.replicate 20 (['9'] : Grapheme)) (ofAscii "0") = none := by
  decide

/-- Claim C2: when the lockstep comparison loop reaches a token pair with
mismatched kinds, the side holding the Numeric token compares Less (and the
NonNumeric side Greater); lifted to whole strings whose leading token pair
mismatches. -/
theorem c2_numeric_before_nonnumeric :
    (∀ (t u : Token) (ts us : List Token),
        t.2 = SortingType.Numeric → u.2 = SortingType.NonNumeric →
        cmpTokens (t :: ts) (u :: us) = some Ordering.lt)
    ∧ (∀ (a b : Str) (t u : Token) (ts us : List Token),
        tokens a = t :: ts → tokens b = u :: us →
        t.2 = SortingType.Numeric → u.2 = SortingType.NonNumeric →
        humane_cmp a b = some Ordering.lt) := by
  have h1 : ∀ (t u : Token) (ts us : List Token),
      t.2 = SortingType.Numeric → u.2 = SortingType.NonNumeric →
      cmpTokens (t :: ts) (u :: us) = some Ordering.lt := by
    intro t u ts us ht hu
    obtain ⟨g1, k1⟩ := t
    obtain ⟨g2, k2⟩ := u
    have ht2 : k1 = SortingType.Numeric := ht
    have hu2 : k2 = SortingType.NonNumeric := hu
    subst ht2
    subst hu2
    rfl
  refine ⟨h1, ?_⟩
  intro a b t u ts us hta htb ht hu
  unfold humane_cmp
  rw [hta, htb]
  exact h1 t u ts us ht hu

/-- Witness for C2 at `"1"` versus `"a"`. -/
theorem c2_numeric_before_nonnumeric_witness :
    humane_cmp (ofAscii "1") (ofAscii "a") = some Ordering.lt :=
  c2_numeric_before_nonnumeric.2 (ofAscii "1") (ofAscii "a")
    ([['1']], SortingType.Numeric) ([['a']], SortingType.NonNumeric) [] []
    (by decide) (by decide) rfl rfl

/-- Counterexample to C3 as stated: `"18446744073709551616"` (= 2^64) and
`"7"` are both Numeric tokens, and ordering by unsigned magnitude would
give Greater, but the code panics (`none`) instead of producing it. -/
theorem c3_refutation :
    humane_cmp (ofAscii "18446744073709551616") (ofAscii "7") = none := by
  decide

/-- Claim C3 (amended: provided both digit runs parse as `usize`, i.e.
their values stay below 2^64): a Numeric/Numeric token pair is ordered by
unsigned integer magnitude, leading zeros ignored (a successful parse
yields exactly the digit value, which is unchanged by a leading zero), and
the loop continues with the next pair on equal magnitudes; in particular
`humane_cmp "007" "7" = Equal`. -/
theorem c3_numeric_by_magnitude :
    (∀ (t u : Token) (ts us : List Token) (x y : Nat),
        t.2 = SortingType.Numeric → u.2 = SortingType.Numeric →
        parseU64 (chars t) = some x → parseU64 (chars u) = some y →
        cmpTokens (t :: ts) (u :: us) =
          if x < y then some Ordering.lt
          else if y < x then some Ordering.gt
          else cmpTokens ts us)
    ∧ (∀ (l : List Char) (x : Nat), parseU64 l = some x → x = digitsVal l)
    ∧ (∀ l : List Char, digitsVal (Char.ofNat 48 :: l) = digitsVal l)
    ∧ humane_cmp (ofAscii "007") (ofAscii "7") = some Ordering.eq := by
  refine ⟨?_, fun l x h => parseU64_digitsVal h, digitsVal_zero_cons, by decide⟩
  intro t u ts us x y ht hu hx hy
  obtain ⟨g1, k1⟩ := t
  obtain ⟨g2, k2⟩ := u
  have ht2 : k1 = SortingType.Numeric := ht
  have hu2 : k2 = SortingType.Numeric := hu
  subst ht2
  subst hu2
  simp only [cmpTokens, hx, hy]
  unfold natCmp
  by_cases h1 : x < y
  · simp [h1]
  · by_cases h2 : y < x
    · simp [h1, h2]
    · simp [h1, h2]

/-- Witness for C3 (amended) at the token pair `"007"`, `"7"`. -/
theorem c3_numeric_by_magnitude_witness :
    cmpTokens [(ofAscii "007", SortingType.Numeric)] [(ofAscii "7", SortingType.Numeric)]
        = some Ordering.eq
    ∧ humane_cmp (ofAscii "007") (ofAscii "7") = some Ordering.eq := by
  constructor
  · rw [c3_numeric_by_magnitude.1 _ _ [] [] 7 7 rfl rfl (by decide) (by decide)]
    decide
  · exact c3_numeric_by_magnitude.2.2.2

/-- Claim C4: exhaustion rules of the lockstep walk — both streams empty
is Equal, only the left empty is Less, only the right empty is Greater;
hence the empty string is Equal to itself and Less than every non-empty
string (which in turn is Greater than the empty string). -/
theorem c4_exhaustion :
    cmpTokens [] [] = some Ordering.eq
    ∧ (∀ (u : Token) (us : List Token), cmpTokens [] (u :: us) = some Ordering.lt)
    ∧ (∀ (t : Token) (ts : List Token), cmpTokens (t :: ts) [] = some Ordering.gt)
    ∧ humane_cmp [] [] = some Ordering.eq
    ∧ (∀ a : Str, a ≠ [] →
        humane_cmp [] a = some Ordering.lt ∧ humane_cmp a [] = some Ordering.gt) := by
  refine ⟨rfl, fun u us => rfl, fun t ts => rfl, rfl, ?_⟩
  intro a ha
  constructor
  · unfold humane_cmp
    cases h : tokens a with
    | nil => exact absurd h (tokens_ne_nil ha)
    | cons t ts => rfl
  · unfold humane_cmp
    cases h : tokens a with
    | nil => exact absurd h (tokens_ne_nil ha)
    | cons t ts => rfl

/-- Witness for C4 at the non-empty string `"x"`. -/
theorem c4_exhaustion_witness :
    humane_cmp [] (ofAscii "x") = some Ordering.lt
    ∧ humane_cmp (ofAscii "x") [] = some Ordering.gt :=
  c4_exhaustion.2.2.2.2 (ofAscii "x") (by decide)

/-- Counterexample to C5 as stated: reflexivity fails on a string whose
digit run exceeds `usize::MAX` (10^20 here), because comparing the string
with itself parses the run on both sides and panics (`none`), not Equal. -/
theorem c5_refutation :
    humane_cmp (ofAscii "100000000000000000000")
      (ofAscii "100000000000000000000") = none := by
  decide

/-- Claim C5 (amended: for every string none of whose digit runs overflows
`usize`): the comparator is reflexive, `humane_cmp a a = Equal`. -/
theorem c5_reflexive_of_no_overflow (a : Str) (ha : parsesOkStr a) :
    humane_cmp a a = some Ordering.eq := by
  rw [humane_cmp_eq_total ha ha, cmpTokensTotal_self]

/-- Witness for C5 (amended) at `"a1b07"`. -/
theorem c5_reflexive_of_no_overflow_witness :
    parsesOkStr (ofAscii "a1b07")
    ∧ humane_cmp (ofAscii "a1b07") (ofAscii "a1b07") = some Ordering.eq :=
  ⟨by decide, c5_reflexive_of_no_overflow _ (by decide)⟩

/-- Claim C6: `humane_cmp b a` is the inverse of `humane_cmp a b` — Less
maps to Greater, Greater to Less, Equal to Equal (and a panic on one
argument order is a panic on the other, `none` to `none`). -/
theorem c6_antisymmetry (a b : Str) :
    humane_cmp b a = (humane_cmp a b).map Ordering.swap :=
  humane_cmp_swap a b

/-- Counterexample to C7 as stated over all strings (including huge digit
runs): with `b` a 21-nines digit run, both `humane_cmp "2" b` and
`humane_cmp b "1"` panic — so neither returns Greater — yet
`humane_cmp "2" "1"` is Greater.  The comparator is not total on huge
digit runs, so the claimed order over *all* strings fails. -/
theorem c7_refutation :
    humane_cmp (ofAscii "2") (ofAscii "999999999999999999999") ≠ some Ordering.gt
    ∧ humane_cmp (ofAscii "999999999999999999999") (ofAscii "1") ≠ some Ordering.gt
    ∧ humane_cmp (ofAscii "2") (ofAscii "1") = some Ordering.gt := by
  decide

/-- Claim C7 (amended: on strings none of whose digit runs overflows
`usize`): transitivity of "not Greater" — together with C5 and C6 the
comparator is a total preorder on such strings. -/
theorem c7_transitive_of_no_overflow (a b c : Str) (ha : parsesOkStr a)
    (hb : parsesOkStr b) (hc : parsesOkStr c)
    (h1 : humane_cmp a b ≠ some Ordering.gt) (h2 : humane_cmp b c ≠ some Ordering.gt) :
    humane_cmp a c ≠ some Ordering.gt :=
  humane_le_trans ha hb hc h1 h2

/-- Witness for C7 (amended) at `"1" ≤ "2" ≤ "3"`. -/
theorem c7_transitive_of_no_overflow_witness :
    humane_cmp (ofAscii "1") (ofAscii "3") ≠ some Ordering.gt :=
  c7_transitive_of_no_overflow (ofAscii "1") (ofAscii "2") (ofAscii "3")
    (by decide) (by decide) (by decide) (by decide) (by decide)

/-- Claim C8: concatenating, in order, the spans of all tokens yielded for
an input reconstructs that input exactly (no gaps, overlaps or omissions);
the empty input yields no token and every non-empty input yields at least
one. -/
theorem c8_reconstruction :
    (∀ a : Str, ((tokens a).map Prod.fst).flatten = a)
    ∧ tokens ([] : Str) = []
    ∧ (∀ a : Str, a ≠ [] → tokens a ≠ []) :=
  ⟨tokens_flatten, rfl, fun _ ha => tokens_ne_nil ha⟩

/-- Witness for C8 at `"11LOL"`. -/
theorem c8_reconstruction_witness :
    ((tokens (ofAscii "11LOL")).map Prod.fst).flatten = ofAscii "11LOL"
    ∧ tokens (ofAscii "11LOL") ≠ [] :=
  ⟨c8_reconstruction.1 (ofAscii "11LOL"), c8_reconstruction.2.2 (ofAscii "11LOL") (by decide)⟩

/-- Claim C9: every yielded token is a maximal run — its span is non-empty,
all its graphemes share the token's classification, and adjacent tokens
have different kinds; tokenizing `"11LOL"` yields exactly the two tokens
`"11"` (Numeric) and `"LOL"` (NonNumeric). -/
theorem c9_maximal_runs :
    (∀ (a : Str) (t : Token), t ∈ tokens a →
        t.1 ≠ [] ∧ ∀ g ∈ t.1, sorting_type g = t.2)
    ∧ (∀ a : Str, List.Chain' (fun t u : Token => t.2 ≠ u.2) (tokens a))
    ∧ tokens (ofAscii "11LOL") =
        [([['1'], ['1']], SortingType.Numeric),
         ([['L'], ['O'], ['L']], SortingType.NonNumeric)] :=
  ⟨fun _ t ht => tokens_mem t ht, tokens_chain, by decide⟩

/-- Witness for C9 at the first token of `"11LOL"`. -/
theorem c9_maximal_runs_witness :
    ([['1'], ['1']] : List Grapheme) ≠ []
    ∧ ∀ g ∈ ([['1'], ['1']] : List Grapheme), sorting_type g = SortingType.Numeric :=
  c9_maximal_runs.1 (ofAscii "11LOL") ([['1'], ['1']], SortingType.Numeric) (by decide)

/-- Counterexample to C10 as stated: sorting a slice containing a digit
run above `usize::MAX` (21 digits here) forces the comparator to parse it,
so `humane_sort` panics (`none`) instead of producing a sorted slice. -/
theorem c10_refutation :
    humane_sort [ofAscii "123456789012345678901", ofAscii "123456789012345678901"]
      = none := by
  decide

/-- Claim C10 (amended: for slices none of whose elements has a digit run
overflowing `usize`): `humane_sort` succeeds and returns a permutation of
its input that is sorted non-decreasingly under `humane_cmp` and stable
(the subsequence of elements comparing Equal to any fixed pivot is kept in
input order); in particular sorting `["11","2","a","1"]` yields
`["1","2","11","a"]`. -/
theorem c10_sort_correct :
    (∀ (l out : List Str), (∀ a ∈ l, parsesOkStr a) → humane_sort l = some out →
        out.Perm l
        ∧ out.Pairwise (fun a b => humane_cmp a b ≠ some Ordering.gt)
        ∧ ∀ p : Str, parsesOkStr p →
            out.filter (fun z => decide (humane_cmp z p = some Ordering.eq)) =
              l.filter (fun z => decide (humane_cmp z p = some Ordering.eq)))
    ∧ humane_sort [ofAscii "11", ofAscii "2", ofAscii "a", ofAscii "1"] =
        some [ofAscii "1", ofAscii "2", ofAscii "11", ofAscii "a"] := by
  refine ⟨?_, by decide⟩
  intro l out hl h
  exact ⟨humane_sort_perm l out h, humane_sort_sorted l out hl h,
    fun p hp => humane_sort_filter p hp l out hl h⟩

/-- Witness for C10 (amended) at the slice `["2","1"]`. -/
theorem c10_sort_correct_witness :
    ([ofAscii "1", ofAscii "2"] : List Str).Perm [ofAscii "2", ofAscii "1"] :=
  (c10_sort_correct.1 [ofAscii "2", ofAscii "1"] [ofAscii "1", ofAscii "2"]
    (by decide) (by decide)).1

end Humanesort
